import Mathlib

/-!
Shallow embedding of the markdown documentation indexing and retrieval
engine (`mcp_server/docs_index.py` and `mcp_server/docs_tools.py`).

Files are modelled at the level the Python code works at after
`read_text(...).splitlines()`: a list of lines.  Filesystem enumeration
order (what `Path.glob` / `Path.rglob` yield) is an input of the model,
since `glob` returns entries in the traversal order the OS provides.
Python `int` is modelled as `Int`; Python list slicing (including its
negative-index wrap-around) is modelled by `pySlice`.
-/

/-- A markdown file as the engine sees it: its external (relative) path
string and the result of `read_text(...).splitlines()`. -/
structure MFile where
  path : String
  lines : List String
deriving Repr, DecidableEq

/-- A search hit, mirroring the dict built in `search_in_file`:
relative file path, 1-based line number, stripped line text. -/
structure SearchHit where
  file : String
  line : Nat
  snippet : String
deriving Repr, DecidableEq

/-- A section slice, mirroring the dicts returned by `read_section` and
`_extract_section_by_header_from_file`.  Line numbers and counts are
`Int` because the Python code computes them in `int` arithmetic and can
produce values below 1 (e.g. `end_line` from a negative window). -/
structure SectionSlice where
  file : String
  start_line : Int
  end_line : Int
  content : String
  line_count : Int
deriving Repr, DecidableEq

/-- The errors raised by the engine (`ValueError` / `FileNotFoundError`),
with the data interpolated into the Python message carried as fields. -/
inductive DocsError where
  | unknownScope (scope : String)
  | fileNotFound (file : String)
  | startBeyond (startLine : Int) (total : Nat)
  | endBeforeStart
deriving Repr, DecidableEq

/-- Python `s.lower()` at the character-list level. -/
def lowerChars (s : String) : List Char := s.data.map Char.toLower

/-- Python `s.lower()` as a string. -/
def lowerStr (s : String) : String := ⟨lowerChars s⟩

/-- Python `s.lstrip()` : drop leading whitespace. -/
def lstripStr (s : String) : String := ⟨s.data.dropWhile Char.isWhitespace⟩

/-- Python `s.strip()` : drop leading and trailing whitespace. -/
def stripStr (s : String) : String :=
  ⟨((s.data.dropWhile Char.isWhitespace).reverse.dropWhile Char.isWhitespace).reverse⟩

/-- Python `s.startswith("#")` : the first character is `#`. -/
def startsHash (s : String) : Bool :=
  match s.data with
  | [] => false
  | c :: _ => c == '#'

/-- Python `len(s) - len(s.lstrip("#"))` : the number of leading `#`. -/
def hashCount (s : String) : Nat := (s.data.takeWhile (· == '#')).length

/-- Python `s[hash_count:].lstrip()` : text after the leading hashes,
with whitespace dropped on the left only. -/
def textPart (s : String) : String :=
  ⟨(s.data.dropWhile (· == '#')).dropWhile Char.isWhitespace⟩

/-- Python `query.lower() in line.lower()` : case-insensitive substring
containment, as infix containment of the lowered character lists. -/
def containsCI (line query : String) : Bool :=
  decide (lowerChars query <:+: lowerChars line)

/-- Normalization of one Python slice bound: negative indices count from
the end (clamped at 0), positive ones are clamped to the length. -/
def pyIdx (n : Nat) (i : Int) : Nat :=
  if i < 0 then (i + n).toNat else min i.toNat n

/-- Python `l[a:b]` (step 1). -/
def pySlice {α : Type} (l : List α) (a b : Int) : List α :=
  (l.take (pyIdx l.length b)).drop (pyIdx l.length a)

/-- One root of a scope, as `get_files_for_scope` sees it: a single file
(kept only when its name ends in `.md`), a directory (whose recursive
`*.md` listing is given in the traversal order `glob` yields, which is
the order the OS provides, not sorted), or a missing path. -/
inductive RootFS where
  | file (f : MFile)
  | dir (files : List MFile)
  | missing
deriving Repr, DecidableEq

/-- The files contributed by one root in `get_files_for_scope`. -/
def rootFiles : RootFS → List MFile
  | RootFS.file f => if f.path.endsWith ".md" then [f] else []
  | RootFS.dir fs => fs
  | RootFS.missing => []

/-- `get_files_for_scope`: resolve the scope in `SCOPE_PATHS` (raising
`ValueError` on an unknown scope) and concatenate each root's files, in
root order then traversal order; no deduplication, no sorting. -/
def get_files_for_scope (scopeMap : List (String × List RootFS)) (scope : String) :
    Except DocsError (List MFile) :=
  match scopeMap.lookup scope with
  | none => Except.error (DocsError.unknownScope scope)
  | some roots => Except.ok (roots.flatMap rootFiles)

/-- The loop body of `search_in_file`: for each line (0-based index `i`)
whose lowered text contains the lowered query, record a hit with the
1-based line number and the stripped line. -/
def searchLines (path query : String) : Nat → List String → List SearchHit
  | _, [] => []
  | i, l :: ls =>
    (if containsCI l query then [⟨path, i + 1, stripStr l⟩] else []) ++
      searchLines path query (i + 1) ls

/-- `search_in_file`: scan one file's lines for the substring. -/
def search_in_file (f : MFile) (query : String) : List SearchHit :=
  searchLines f.path query 0 f.lines

/-- The file loop of `search_scope`: extend the accumulated results with
each file's hits and stop opening further files once the accumulated
count reaches the limit. -/
def searchLoop (query : String) (lim : Nat) : List MFile → List SearchHit → List SearchHit
  | [], results => results
  | f :: rest, results =>
    let results2 := results ++ search_in_file f query
    if lim ≤ results2.length then results2 else searchLoop query lim rest results2

/-- `search_scope`: empty or whitespace-only queries return `[]` before
the scope is even resolved; a non-positive limit is replaced by 20; the
final result is truncated to the limit. -/
def search_scope_full (scopeMap : List (String × List RootFS)) (scope query : String)
    (limit : Int) : Except DocsError (List SearchHit) :=
  if stripStr query = "" then Except.ok []
  else
    let lim : Nat := if limit ≤ 0 then 20 else limit.toNat
    (get_files_for_scope scopeMap scope).map
      (fun files => (searchLoop query lim files []).take lim)

/-- The tool-facing `search_openai_docs`: validates the scope against
`SCOPES` first, then strips the query (returning `[]` when the stripped
query is empty), replaces a non-positive limit by 10, and delegates to
`search_scope`. -/
def search_openai_docs (scopes : List String) (scopeMap : List (String × List RootFS))
    (scope query : String) (limit : Int) : Except DocsError (List SearchHit) :=
  if scope ∈ scopes then
    let q := stripStr query
    if q = "" then Except.ok []
    else
      let lim : Int := if limit ≤ 0 then 10 else limit
      search_scope_full scopeMap scope q lim
  else Except.error (DocsError.unknownScope scope)

/-- The body of `read_section` once the file's lines are in hand: clamp
`start_line` below 1 up to 1, fail if the (clamped) start is beyond the
end of file, check `end_line >= start_line` when `end_line` is given,
compute the effective end index, and slice. -/
def read_section_lines (relFile : String) (lines : List String) (start_line : Int)
    (end_line : Option Int) (max_lines : Int) : Except DocsError SectionSlice :=
  let s := if start_line < 1 then 1 else start_line
  if (lines.length : Int) < s then
    Except.error (DocsError.startBeyond s lines.length)
  else
    match end_line with
    | some e =>
      if e < s then Except.error DocsError.endBeforeStart
      else
        let end_idx : Int := min e (lines.length : Int)
        let sl := pySlice lines (s - 1) end_idx
        Except.ok { file := relFile, start_line := s, end_line := end_idx,
                    content := String.intercalate "\n" sl, line_count := (sl.length : Int) }
    | none =>
      let end_idx : Int := min (s - 1 + max_lines) (lines.length : Int)
      let sl := pySlice lines (s - 1) end_idx
      Except.ok { file := relFile, start_line := s, end_line := end_idx,
                  content := String.intercalate "\n" sl, line_count := (sl.length : Int) }

/-- `read_section`: resolve the path (modelled as a lookup in an
association list from path to lines) and fail with `FileNotFoundError`
when it does not exist. -/
def read_section (fs : List (String × List String)) (file : String) (start_line : Int)
    (end_line : Option Int) (max_lines : Int) : Except DocsError SectionSlice :=
  match fs.lookup file with
  | none => Except.error (DocsError.fileNotFound file)
  | some lines => read_section_lines file lines start_line end_line max_lines

/-- The per-line acceptance test of the header-finding loop in
`_extract_section_by_header_from_file`: after left-stripping, the line
must start with `#`; the text after the hashes (left-stripped only) must
be non-empty; when a level is requested the hash count must equal it;
finally the lowered text must equal the lowered, stripped target. -/
def headerLineMatch (target : String) (hl : Option Int) (line : String) : Bool :=
  let stripped := lstripStr line
  if !startsHash stripped then false
  else
    let hc := hashCount stripped
    if hc = 0 then false
    else
      let tp := textPart stripped
      if tp == "" then false
      else if (match hl with | some l0 => (hc : Int) != l0 | none => false) then false
      else lowerStr tp == target

/-- The header-finding loop: first line (from 0-based index `i` on)
accepted by `headerLineMatch`, together with its hash count
(`effective_level`). -/
def findHeaderFrom (target : String) (hl : Option Int) : Nat → List String → Option (Nat × Nat)
  | _, [] => none
  | i, l :: ls =>
    if headerLineMatch target hl l then some (i, hashCount (lstripStr l))
    else findHeaderFrom target hl (i + 1) ls

/-- The end-of-section test of the second loop: the left-stripped line
starts with `#` and its hash count is at most the matched level.  Note
that, unlike the header-finding loop, no visible text is required. -/
def boundaryLine (lvl : Nat) (line : String) : Bool :=
  startsHash (lstripStr line) && decide (hashCount (lstripStr line) ≤ lvl)

/-- Generic first-index search from a starting index, mirroring a
`for j in range(i, ...)` loop with a `break`. -/
def findFrom (p : String → Bool) : Nat → List String → Option Nat
  | _, [] => none
  | i, l :: ls => if p l then some i else findFrom p (i + 1) ls

/-- `_extract_section_by_header_from_file` on a file's lines: find the
first matching header, find the next same-or-shallower hash line (else
end of file), truncate to `max_lines` lines from the header, and slice.
Returns `none` when no header matches (the caller also returns `None`
when the path is not a file). -/
def extract_section_by_header (relFile : String) (lines : List String) (header : String)
    (header_level : Option Int) (max_lines : Int) : Option SectionSlice :=
  let target := lowerStr (stripStr header)
  match findHeaderFrom target header_level 0 lines with
  | none => none
  | some (start_idx, lvl) =>
    let nb : Nat :=
      match findFrom (boundaryLine lvl) (start_idx + 1) (lines.drop (start_idx + 1)) with
      | some j => j
      | none => lines.length
    let end_idx : Int :=
      if Int.ofNat nb - Int.ofNat start_idx > max_lines then Int.ofNat start_idx + max_lines
      else Int.ofNat nb
    let sl := pySlice lines (start_idx : Int) end_idx
    some { file := relFile
         , start_line := (start_idx : Int) + 1
         , end_line := end_idx
         , content := String.intercalate "\n" sl
         , line_count := end_idx - ((start_idx : Int) + 1) + 1 }

/-- One root of a scope as `list_openai_doc_files` sees it; a path is
represented by its resolved absolute form (`Path.resolve()`), which is
the deduplication identity the code uses. -/
inductive RootP where
  | file (p : String)
  | dir (ps : List String)
  | missing
deriving Repr, DecidableEq

/-- The candidate files contributed by one root in
`list_openai_doc_files` (`[root]` for a file, `rglob("*.md")` in
traversal order for a directory, nothing for a missing path). -/
def candidatePaths : RootP → List String
  | RootP.file p => [p]
  | RootP.dir ps => ps
  | RootP.missing => []

/-- The `seen` / `files` accumulation of `list_openai_doc_files`: keep
the first occurrence of each resolved path. -/
def dedupSeen : List String → List String → List String
  | _, [] => []
  | seen, x :: xs => if x ∈ seen then dedupSeen seen xs else x :: dedupSeen (x :: seen) xs

/-- Lexicographic comparison of character lists by code point, the
order Python uses to compare strings. -/
def leChars : List Char → List Char → Bool
  | [], _ => true
  | _ :: _, [] => false
  | a :: as, b :: bs =>
    if a.val.toNat < b.val.toNat then true
    else if b.val.toNat < a.val.toNat then false
    else leChars as bs

/-- Python string comparison `a <= b`. -/
def leStr (a b : String) : Bool := leChars a.data b.data

/-- Python string comparison as a relation. -/
def StrLe (a b : String) : Prop := leStr a b = true

instance (a b : String) : Decidable (StrLe a b) :=
  inferInstanceAs (Decidable (leStr a b = true))

/-- Insertion into a weakly sorted list (ascending string order). -/
def sortedInsert (s : String) : List String → List String
  | [] => [s]
  | x :: xs => if leStr s x then s :: x :: xs else x :: sortedInsert s xs

/-- `result.sort()`: sort the relative path strings ascending. -/
def sortStrings (l : List String) : List String := l.foldr sortedInsert []

/-- `list_openai_doc_files`: collect candidate paths root by root,
deduplicate by resolved path, map each survivor to its external string
(`relative_to(REPO_ROOT)` when under the root, else the path itself,
modelled by the parameter `relOf`), and sort the strings. -/
def list_openai_doc_files (relOf : String → String) (roots : List RootP) : List String :=
  sortStrings ((dedupSeen [] (roots.flatMap candidatePaths)).map relOf)

/-- A stat-able path seen by `get_last_update_metadata`: its external
name and its `st_mtime` (`none` models an `OSError` from `stat`, which
the code skips).  Modification times are modelled as integers. -/
structure StatP where
  name : String
  mtime : Option Int
deriving Repr, DecidableEq

/-- One root of a scope as `get_last_update_metadata` walks it (a file
root is taken as a candidate itself, with no `.md` check). -/
inductive RootW where
  | file (p : StatP)
  | dir (ps : List StatP)
  | missing
deriving Repr, DecidableEq

/-- The candidates contributed by one root in the metadata walk. -/
def candidatesOf : RootW → List StatP
  | RootW.file p => [p]
  | RootW.dir ps => ps
  | RootW.missing => []

/-- The update of `(latest_mtime, latest_path)` for one candidate:
strictly greater modification times win; `stat` errors are skipped. -/
def updStep (acc : Int × Option String) (p : StatP) : Int × Option String :=
  match p.mtime with
  | none => acc
  | some m => if acc.1 < m then (m, some p.name) else acc

/-- `get_last_update_metadata`: walk every root of every scope (in
registry order), keep the strictly latest candidate, and fall back to
the repository root's own identity and mtime when none was kept.
Returns `(last_modified_file, last_modified_unix)`. -/
def get_last_update_metadata (repoRoot : String) (repoMtime : Int)
    (scopeRoots : List (List RootW)) : String × Int :=
  let st := scopeRoots.foldl
    (fun a roots => roots.foldl (fun a r => (candidatesOf r).foldl updStep a) a)
    ((0 : Int), (none : Option String))
  match st.2 with
  | some nm => (nm, st.1)
  | none => (repoRoot, repoMtime)

/-- The walk order of `get_last_update_metadata`, flattened: all
candidates of all roots of all scopes, in encounter order. -/
def candsOfAll (scopeRoots : List (List RootW)) : List StatP :=
  scopeRoots.flatMap (fun roots => roots.flatMap candidatesOf)

/-- Spec-side definition (used to state claims, not taken from the
code): the 1-based inclusive range of lines `[a, b]`, empty when
`b < a`. -/
def specLinesInclusive (lines : List String) (a b : Int) : List String :=
  if b < a then [] else (lines.take b.toNat).drop (a - 1).toNat

/-- Spec-side definition: a heading line per the specification's words,
`one or more # characters followed by non-empty visible text`. -/
def specIsHeadingLine (l : String) : Bool :=
  decide (1 ≤ hashCount (lstripStr l)) && decide (textPart (lstripStr l) ≠ "")

/-- Spec-side definition: the claimed matching rule, with the heading's
visible text trimmed on both sides before the case-insensitive
comparison. -/
def specHeaderMatches (line header : String) (hl : Option Int) : Bool :=
  specIsHeadingLine line &&
    decide (lowerStr (stripStr (String.mk ((lstripStr line).data.dropWhile (· == '#')))) =
      lowerStr (stripStr header)) &&
    (match hl with
     | none => true
     | some l0 => decide ((hashCount (lstripStr line) : Int) = l0))


/-- The spec's effective end of a line-range read: `min(endLine, total)`
when `endLine` is given, `min(startLine - 1 + maxLines, total)`
otherwise. -/
def specEffectiveEnd (total : Nat) (s : Int) (e : Option Int) (m : Int) : Int :=
  match e with
  | some ev => min ev (total : Int)
  | none => min (s - 1 + m) (total : Int)

theorem pySlice_length {α : Type} (l : List α) (a b : Int) (ha0 : 0 ≤ a)
    (hal : a ≤ (l.length : Int)) (hb0 : 0 ≤ b) (hbl : b ≤ (l.length : Int)) :
    (pySlice l a b).length = b.toNat - a.toNat := by
  simp only [pySlice, pyIdx, if_neg (not_lt.mpr ha0), if_neg (not_lt.mpr hb0)]
  rw [List.length_drop, List.length_take]
  omega

theorem pySlice_eq_specLines (lines : List String) (s b : Int) (hs : 1 ≤ s)
    (hsl : s ≤ (lines.length : Int)) (hb0 : 0 ≤ b) (hbl : b ≤ (lines.length : Int)) :
    pySlice lines (s - 1) b = specLinesInclusive lines s b := by
  simp only [pySlice, pyIdx, specLinesInclusive,
    if_neg (show ¬(s - 1 : Int) < 0 by omega), if_neg (not_lt.mpr hb0)]
  have h1 : min (s - 1).toNat lines.length = (s - 1).toNat := by omega
  have h2 : min b.toNat lines.length = b.toNat := by omega
  rw [h1, h2]
  by_cases hba : b < s
  · rw [if_pos hba]
    apply List.drop_eq_nil_of_le
    rw [List.length_take]
    omega
  · rw [if_neg hba]

theorem startsHash_eq_true_iff (s : String) : startsHash s = true ↔ 1 ≤ hashCount s := by
  obtain ⟨data⟩ := s
  cases data with
  | nil => simp [startsHash, hashCount]
  | cons c cs =>
    simp only [startsHash, hashCount, List.takeWhile_cons]
    by_cases h : (c == '#') = true
    · simp [h]
    · simp [h]

theorem findFrom_some_spec (p : String → Bool) :
    ∀ (ls : List String) (i j : Nat), findFrom p i ls = some j →
      i ≤ j ∧ j - i < ls.length ∧
      (∃ l, ls[j - i]? = some l ∧ p l = true) ∧
      (∀ t l', t < j - i → ls[t]? = some l' → p l' = false) := by
  intro ls
  induction ls with
  | nil => intro i j h; simp [findFrom] at h
  | cons l ls ih =>
    intro i j h
    simp only [findFrom] at h
    by_cases hp : p l = true
    · rw [if_pos hp] at h
      obtain rfl : i = j := by injection h
      refine ⟨le_refl _, by simp, ⟨l, by simp, hp⟩, ?_⟩
      intro t l' ht
      omega
    · rw [if_neg hp] at h
      obtain ⟨h1, h2, ⟨lw, hlw, hlp⟩, hmin⟩ := ih (i + 1) j h
      refine ⟨by omega, by simp; omega, ⟨lw, ?_, hlp⟩, ?_⟩
      · have hji : j - i = (j - (i + 1)) + 1 := by omega
        rw [hji]
        simpa using hlw
      · intro t l' ht hget
        cases t with
        | zero =>
          simp only [List.getElem?_cons_zero, Option.some.injEq] at hget
          subst hget
          simpa using hp
        | succ t' =>
          apply hmin t' l' (by omega)
          simpa using hget

theorem findFrom_none_spec (p : String → Bool) :
    ∀ (ls : List String) (i : Nat), findFrom p i ls = none →
      ∀ (t : Nat) (l' : String), ls[t]? = some l' → p l' = false := by
  intro ls
  induction ls with
  | nil => intro i _ t l' hget; simp at hget
  | cons l ls ih =>
    intro i h t l' hget
    simp only [findFrom] at h
    by_cases hp : p l = true
    · rw [if_pos hp] at h; exact absurd h (by simp)
    · rw [if_neg hp] at h
      cases t with
      | zero =>
        simp only [List.getElem?_cons_zero, Option.some.injEq] at hget
        subst hget
        simpa using hp
      | succ t' =>
        apply ih (i + 1) h t' l'
        simpa using hget

theorem findHeaderFrom_some_spec (target : String) (hl : Option Int) :
    ∀ (ls : List String) (i j lvl : Nat), findHeaderFrom target hl i ls = some (j, lvl) →
      i ≤ j ∧ j - i < ls.length ∧
      (∃ l, ls[j - i]? = some l ∧ headerLineMatch target hl l = true ∧
        lvl = hashCount (lstripStr l)) ∧
      (∀ t l', t < j - i → ls[t]? = some l' → headerLineMatch target hl l' = false) := by
  intro ls
  induction ls with
  | nil => intro i j lvl h; simp [findHeaderFrom] at h
  | cons l ls ih =>
    intro i j lvl h
    simp only [findHeaderFrom] at h
    by_cases hp : headerLineMatch target hl l = true
    · rw [if_pos hp] at h
      obtain ⟨rfl, rfl⟩ : i = j ∧ lvl = hashCount (lstripStr l) := by
        injection h with h'
        injection h' with ha hb
        exact ⟨ha, hb.symm⟩
      refine ⟨le_refl _, by simp, ⟨l, by simp, hp, rfl⟩, ?_⟩
      intro t l' ht
      omega
    · rw [if_neg hp] at h
      obtain ⟨h1, h2, ⟨lw, hlw, hlp, hlvl⟩, hmin⟩ := ih (i + 1) j lvl h
      refine ⟨by omega, by simp; omega, ⟨lw, ?_, hlp, hlvl⟩, ?_⟩
      · have hji : j - i = (j - (i + 1)) + 1 := by omega
        rw [hji]
        simpa using hlw
      · intro t l' ht hget
        cases t with
        | zero =>
          simp only [List.getElem?_cons_zero, Option.some.injEq] at hget
          subst hget
          simpa using hp
        | succ t' =>
          apply hmin t' l' (by omega)
          simpa using hget

theorem searchLines_mem_spec (path query : String) :
    ∀ (ls : List String) (i : Nat) (h : SearchHit), h ∈ searchLines path query i ls →
      ∃ (k : Nat) (l : String), ls[k]? = some l ∧ h = ⟨path, i + k + 1, stripStr l⟩ ∧
        containsCI l query = true := by
  intro ls
  induction ls with
  | nil => intro i h hm; simp [searchLines] at hm
  | cons l ls ih =>
    intro i h hm
    simp only [searchLines, List.mem_append] at hm
    rcases hm with hm | hm
    · by_cases hc : containsCI l query = true
      · rw [if_pos hc] at hm
        simp only [List.mem_singleton] at hm
        exact ⟨0, l, by simp, hm, hc⟩
      · rw [if_neg hc] at hm
        simp at hm
    · obtain ⟨k, lw, hget, heq, hc⟩ := ih (i + 1) h hm
      refine ⟨k + 1, lw, by simpa using hget, ?_, hc⟩
      rw [heq]
      have : i + 1 + k + 1 = i + (k + 1) + 1 := by omega
      rw [this]

theorem searchLines_sorted (path query : String) :
    ∀ (ls : List String) (i : Nat),
      List.Sorted (· < ·) ((searchLines path query i ls).map SearchHit.line) := by
  intro ls
  induction ls with
  | nil => intro i; simp [searchLines]
  | cons l ls ih =>
    intro i
    simp only [searchLines]
    by_cases hc : containsCI l query = true
    · rw [if_pos hc]
      simp only [List.singleton_append, List.map_cons, List.sorted_cons]
      refine ⟨?_, ih (i + 1)⟩
      intro b hb
      simp only [List.mem_map] at hb
      obtain ⟨h, hm, rfl⟩ := hb
      obtain ⟨k, lw, _, rfl, _⟩ := searchLines_mem_spec path query ls (i + 1) h hm
      show i + 1 < i + 1 + k + 1
      omega
    · rw [if_neg hc]
      simpa using ih (i + 1)

theorem searchLoop_mem_spec (query : String) (lim : Nat) :
    ∀ (files : List MFile) (acc : List SearchHit) (h : SearchHit),
      h ∈ searchLoop query lim files acc →
      h ∈ acc ∨ ∃ f ∈ files, h ∈ search_in_file f query := by
  intro files
  induction files with
  | nil => intro acc h hm; exact Or.inl hm
  | cons f rest ih =>
    intro acc h hm
    simp only [searchLoop] at hm
    by_cases hb : lim ≤ (acc ++ search_in_file f query).length
    · rw [if_pos hb] at hm
      rcases List.mem_append.mp hm with hm | hm
      · exact Or.inl hm
      · exact Or.inr ⟨f, by simp, hm⟩
    · rw [if_neg hb] at hm
      rcases ih (acc ++ search_in_file f query) h hm with hm' | ⟨g, hg, hmem⟩
      · rcases List.mem_append.mp hm' with hm'' | hm''
        · exact Or.inl hm''
        · exact Or.inr ⟨f, by simp, hm''⟩
      · exact Or.inr ⟨g, by simp [hg], hmem⟩

theorem searchLoop_take (query : String) (lim : Nat) :
    ∀ (files : List MFile) (acc : List SearchHit) (n : Nat), n ≤ lim →
      (searchLoop query lim files acc).take n
        = (acc ++ (files.map (fun f => search_in_file f query)).flatten).take n := by
  intro files
  induction files with
  | nil => intro acc n _; simp [searchLoop]
  | cons f rest ih =>
    intro acc n hn
    simp only [searchLoop, List.map_cons, List.flatten_cons]
    by_cases hb : lim ≤ (acc ++ search_in_file f query).length
    · rw [if_pos hb]
      rw [← List.append_assoc, List.take_append_of_le_length
        (show n ≤ (acc ++ search_in_file f query).length by omega)]
    · rw [if_neg hb]
      rw [ih (acc ++ search_in_file f query) n hn, List.append_assoc]

theorem dedupSeen_nodup_and_fresh :
    ∀ (l seen : List String), (dedupSeen seen l).Nodup ∧ ∀ x ∈ dedupSeen seen l, x ∉ seen := by
  intro l
  induction l with
  | nil => intro seen; simp [dedupSeen]
  | cons x xs ih =>
    intro seen
    simp only [dedupSeen]
    by_cases hx : x ∈ seen
    · rw [if_pos hx]; exact ih seen
    · rw [if_neg hx]
      obtain ⟨hnd, hfresh⟩ := ih (x :: seen)
      refine ⟨List.nodup_cons.mpr ⟨?_, hnd⟩, ?_⟩
      · intro hmem
        exact hfresh x hmem (by simp)
      · intro y hy
        rcases List.mem_cons.mp hy with rfl | hy'
        · exact hx
        · intro hyseen
          exact hfresh y hy' (by simp [hyseen])

theorem dedupSeen_sub :
    ∀ (l seen : List String), ∀ x ∈ dedupSeen seen l, x ∈ l := by
  intro l
  induction l with
  | nil => intro seen x hx; simp [dedupSeen] at hx
  | cons a xs ih =>
    intro seen x hx
    simp only [dedupSeen] at hx
    by_cases ha : a ∈ seen
    · rw [if_pos ha] at hx
      exact List.mem_cons_of_mem a (ih seen x hx)
    · rw [if_neg ha] at hx
      rcases List.mem_cons.mp hx with rfl | hx'
      · exact List.mem_cons_self _ _
      · exact List.mem_cons_of_mem a (ih (a :: seen) x hx')

theorem sortedInsert_perm (s : String) :
    ∀ l : List String, (sortedInsert s l).Perm (s :: l) := by
  intro l
  induction l with
  | nil => simp [sortedInsert]
  | cons x xs ih =>
    simp only [sortedInsert]
    by_cases hsx : leStr s x = true
    · rw [if_pos hsx]
    · rw [if_neg hsx]
      exact (ih.cons x).trans (List.Perm.swap s x xs)

theorem sortStrings_perm : ∀ l : List String, (sortStrings l).Perm l := by
  intro l
  induction l with
  | nil => simp [sortStrings]
  | cons x xs ih =>
    show (sortedInsert x (sortStrings xs)).Perm (x :: xs)
    exact (sortedInsert_perm x (sortStrings xs)).trans (ih.cons x)

theorem leChars_total : ∀ a b : List Char, leChars a b = true ∨ leChars b a = true := by
  intro a
  induction a with
  | nil => intro b; left; rfl
  | cons c cs ih =>
    intro b
    cases b with
    | nil => right; rfl
    | cons d ds =>
      simp only [leChars]
      by_cases h1 : c.val.toNat < d.val.toNat
      · left; rw [if_pos h1]
      · by_cases h2 : d.val.toNat < c.val.toNat
        · right; rw [if_pos h2]
        · rw [if_neg h1, if_neg h2, if_neg h2, if_neg h1]
          exact ih ds

theorem leChars_trans :
    ∀ a b c : List Char, leChars a b = true → leChars b c = true → leChars a c = true := by
  intro a
  induction a with
  | nil => intro b c _ _; rfl
  | cons x xs ih =>
    intro b c hab hbc
    cases b with
    | nil => simp [leChars] at hab
    | cons y ys =>
      cases c with
      | nil => simp [leChars] at hbc
      | cons z zs =>
        simp only [leChars] at hab hbc ⊢
        by_cases hyz : y.val.toNat < z.val.toNat
        · by_cases hxy : x.val.toNat < y.val.toNat
          · rw [if_pos (show x.val.toNat < z.val.toNat by omega)]
          · rw [if_neg hxy] at hab
            by_cases hyx : y.val.toNat < x.val.toNat
            · rw [if_pos hyx] at hab
              exact absurd hab (by simp)
            · rw [if_pos (show x.val.toNat < z.val.toNat by omega)]
        · rw [if_neg hyz] at hbc
          by_cases hzy : z.val.toNat < y.val.toNat
          · rw [if_pos hzy] at hbc
            exact absurd hbc (by simp)
          · rw [if_neg hzy] at hbc
            have hyzeq : y = z := by
              apply Char.ext
              apply UInt32.ext
              omega
            subst hyzeq
            by_cases hxy : x.val.toNat < y.val.toNat
            · rw [if_pos hxy]
            · rw [if_neg hxy] at hab ⊢
              by_cases hyx : y.val.toNat < x.val.toNat
              · rw [if_pos hyx] at hab
                exact absurd hab (by simp)
              · rw [if_neg hyx] at hab ⊢
                exact ih ys zs hab hbc

theorem StrLe_total (a b : String) : StrLe a b ∨ StrLe b a := leChars_total a.data b.data

theorem StrLe_trans {a b c : String} (h1 : StrLe a b) (h2 : StrLe b c) : StrLe a c :=
  leChars_trans a.data b.data c.data h1 h2

theorem sortedInsert_sorted (s : String) :
    ∀ l : List String, List.Sorted StrLe l → List.Sorted StrLe (sortedInsert s l) := by
  intro l
  induction l with
  | nil => intro _; simp [sortedInsert]
  | cons x xs ih =>
    intro hs
    rw [List.sorted_cons] at hs
    obtain ⟨hxall, hxs⟩ := hs
    simp only [sortedInsert]
    by_cases hsx : leStr s x = true
    · rw [if_pos hsx]
      rw [List.sorted_cons]
      refine ⟨?_, List.sorted_cons.mpr ⟨hxall, hxs⟩⟩
      intro b hb
      rcases List.mem_cons.mp hb with rfl | hb'
      · exact hsx
      · exact StrLe_trans hsx (hxall b hb')
    · rw [if_neg hsx]
      rw [List.sorted_cons]
      refine ⟨?_, ih hxs⟩
      intro b hb
      have hb' := (sortedInsert_perm s xs).mem_iff.mp hb
      rcases List.mem_cons.mp hb' with rfl | hb''
      · rcases StrLe_total x b with h | h
        · exact h
        · exact absurd h hsx
      · exact hxall b hb''

theorem sortStrings_sorted : ∀ l : List String, List.Sorted StrLe (sortStrings l) := by
  intro l
  induction l with
  | nil => simp [sortStrings]
  | cons x xs ih =>
    show List.Sorted StrLe (sortedInsert x (sortStrings xs))
    exact sortedInsert_sorted x (sortStrings xs) ih

theorem foldl_flatMap_eq {β γ σ : Type} (f : σ → γ → σ) (g : β → List γ) :
    ∀ (l : List β) (a : σ),
      (l.flatMap g).foldl f a = l.foldl (fun a b => (g b).foldl f a) a := by
  intro l
  induction l with
  | nil => intro a; simp
  | cons x xs ih =>
    intro a
    simp only [List.flatMap_cons, List.foldl_append, List.foldl_cons]
    exact ih ((g x).foldl f a)

theorem get_last_update_metadata_eq_flat (repoRoot : String) (repoMtime : Int)
    (scopeRoots : List (List RootW)) :
    get_last_update_metadata repoRoot repoMtime scopeRoots =
      match ((candsOfAll scopeRoots).foldl updStep ((0 : Int), (none : Option String))).2 with
      | some nm => (nm, ((candsOfAll scopeRoots).foldl updStep ((0 : Int), (none : Option String))).1)
      | none => (repoRoot, repoMtime) := by
  have h : (candsOfAll scopeRoots).foldl updStep ((0 : Int), (none : Option String))
      = scopeRoots.foldl
          (fun a roots => roots.foldl (fun a r => (candidatesOf r).foldl updStep a) a)
          ((0 : Int), (none : Option String)) := by
    rw [candsOfAll, foldl_flatMap_eq]
    congr 1
    funext a roots
    rw [foldl_flatMap_eq]
  rw [get_last_update_metadata, h]

theorem updStep_skip (acc : Int × Option String) (p : StatP) (h : p.mtime = none) :
    updStep acc p = acc := by
  simp [updStep, h]

theorem updStep_keep (acc : Int × Option String) (p : StatP) (mc : Int)
    (h : p.mtime = some mc) (hle : ¬ acc.1 < mc) : updStep acc p = acc := by
  simp only [updStep, h]
  rw [if_neg hle]

theorem updStep_new (acc : Int × Option String) (p : StatP) (mc : Int)
    (h : p.mtime = some mc) (hgt : acc.1 < mc) : updStep acc p = (mc, some p.name) := by
  simp only [updStep, h]
  rw [if_pos hgt]

theorem scan_stay (m : Int) :
    ∀ (cands : List StatP) (a : Int) (s : Option String), m ≤ a →
      (∀ (j : Nat) (q : StatP) (mq : Int), cands[j]? = some q → q.mtime = some mq → mq ≤ m) →
      cands.foldl updStep (a, s) = (a, s) := by
  intro cands
  induction cands with
  | nil => intro a s _ _; simp
  | cons c rest ih =>
    intro a s hma hb
    simp only [List.foldl_cons]
    have hstep : updStep (a, s) c = (a, s) := by
      cases hc : c.mtime with
      | none => exact updStep_skip _ _ hc
      | some mc =>
        have : mc ≤ m := hb 0 c mc (by simp) hc
        exact updStep_keep _ _ mc hc (by simp; omega)
    rw [hstep]
    apply ih a s hma
    intro j q mq hj hq
    exact hb (j + 1) q mq (by simpa using hj) hq

theorem scan_first :
    ∀ (cands : List StatP) (i : Nat) (p : StatP) (m : Int) (a : Int) (s : Option String),
      cands[i]? = some p → p.mtime = some m → a < m →
      (∀ (j : Nat) (q : StatP) (mq : Int), cands[j]? = some q → q.mtime = some mq → mq ≤ m) →
      (∀ j, j < i → ∀ (q : StatP) (mq : Int), cands[j]? = some q → q.mtime = some mq → mq < m) →
      cands.foldl updStep (a, s) = (m, some p.name) := by
  intro cands
  induction cands with
  | nil => intro i p m a s hi; simp at hi
  | cons c rest ih =>
    intro i p m a s hi hm ham hb hfirst
    simp only [List.foldl_cons]
    cases i with
    | zero =>
      have hcp : c = p := by simpa using hi
      subst hcp
      rw [updStep_new (a, s) c m hm (by simpa using ham)]
      apply scan_stay m rest m (some c.name) (le_refl m)
      intro j q mq hj hq
      exact hb (j + 1) q mq (by simpa using hj) hq
    | succ i' =>
      have hrest : rest[i']? = some p := by simpa using hi
      have hb' : ∀ (j : Nat) (q : StatP) (mq : Int),
          rest[j]? = some q → q.mtime = some mq → mq ≤ m := by
        intro j q mq hj hq
        exact hb (j + 1) q mq (by simpa using hj) hq
      have hfirst' : ∀ j, j < i' → ∀ (q : StatP) (mq : Int),
          rest[j]? = some q → q.mtime = some mq → mq < m := by
        intro j hj q mq hjq hq
        exact hfirst (j + 1) (by omega) q mq (by simpa using hjq) hq
      cases hcm : c.mtime with
      | none =>
        rw [updStep_skip (a, s) c hcm]
        exact ih i' p m a s hrest hm ham hb' hfirst'
      | some mc =>
        have hmc : mc < m := hfirst 0 (by omega) c mc (by simp) hcm
        by_cases hamc : a < mc
        · rw [updStep_new (a, s) c mc hcm (by simpa using hamc)]
          exact ih i' p m mc (some c.name) hrest hm hmc hb' hfirst'
        · rw [updStep_keep (a, s) c mc hcm (by simpa using hamc)]
          exact ih i' p m a s hrest hm ham hb' hfirst'

/-- C8: for every scope string, including unrecognized identifiers,
`search_scope` with an empty or whitespace-only query returns the empty
list and raises no error (the empty-query check precedes scope
resolution); the tool-facing `search_openai_docs`, by contrast,
validates the scope before examining the query. -/
theorem C8_empty_query_before_scope (scopeMap : List (String × List RootFS))
    (scopes : List String) (scope query : String) (limit : Int) :
    (stripStr query = "" → search_scope_full scopeMap scope query limit = Except.ok []) ∧
    (scope ∉ scopes → search_openai_docs scopes scopeMap scope query limit =
      Except.error (DocsError.unknownScope scope)) := by
  constructor
  · intro hq
    simp [search_scope_full, hq]
  · intro hs
    simp [search_openai_docs, hs]

/-- Witness for C8: a whitespace query against an unknown scope returns
`[]` from `search_scope`, while the tool rejects the unknown scope even
with a non-empty query. -/
theorem C8_empty_query_before_scope_witness :
    search_scope_full [] "nope" "   " 5 = Except.ok [] ∧
    search_openai_docs ["unified"] [] "nope" "hi" 5 =
      Except.error (DocsError.unknownScope "nope") :=
  ⟨(C8_empty_query_before_scope [] ["unified"] "nope" "   " 5).1 (by decide),
   (C8_empty_query_before_scope [] ["unified"] "nope" "hi" 5).2 (by decide)⟩

/-- C7: `read_section` fails with `FileNotFoundError` when the resolved
path does not exist; fails with a range error carrying the (clamped)
requested start line and the file's actual total line count when that
start exceeds the total; and fails with a range error when a supplied
end line is below the requested start line; in every failure case no
result is produced. -/
theorem C7_read_section_errors (fs : List (String × List String)) (file : String)
    (s : Int) (e : Option Int) (m : Int) :
    (fs.lookup file = none →
      read_section fs file s e m = Except.error (DocsError.fileNotFound file)) ∧
    (∀ lines : List String, fs.lookup file = some lines →
      (lines.length : Int) < (if s < 1 then 1 else s) →
      read_section fs file s e m =
        Except.error (DocsError.startBeyond (if s < 1 then 1 else s) lines.length)) ∧
    (∀ (lines : List String) (ev : Int), fs.lookup file = some lines → e = some ev → ev < s →
      read_section fs file s e m = Except.error DocsError.endBeforeStart ∨
      read_section fs file s e m =
        Except.error (DocsError.startBeyond (if s < 1 then 1 else s) lines.length)) := by
  refine ⟨?_, ?_, ?_⟩
  · intro h
    simp [read_section, h]
  · intro lines h hlt
    simp only [read_section, h]
    simp only [read_section_lines]
    rw [if_pos hlt]
  · intro lines ev h hev hlt
    subst hev
    simp only [read_section, h]
    by_cases hbeyond : (lines.length : Int) < (if s < 1 then 1 else s)
    · right
      simp only [read_section_lines]
      rw [if_pos hbeyond]
    · left
      simp only [read_section_lines]
      rw [if_neg hbeyond]
      have hlt' : ev < (if s < 1 then 1 else s) := by
        by_cases h1 : s < 1
        · rw [if_pos h1]; omega
        · rw [if_neg h1]; omega
      rw [if_pos hlt']

/-- Witness for C7: a missing file yields `FileNotFoundError`. -/
theorem C7_read_section_errors_witness :
    read_section [] "g" 1 none 80 = Except.error (DocsError.fileNotFound "g") :=
  (C7_read_section_errors [] "g" 1 none 80).1 rfl

/-- C2 (amended: in the omitted-endLine case `maxLines ≥ 0` is required;
for sufficiently negative `maxLines` the effective end index becomes
negative and Python's slice semantics count it from the end of the
file instead of producing the empty inclusive range the claim
describes): for an existing file and `1 ≤ startLine ≤ totalLines`,
`read_section` succeeds and returns the newline-joined lines
`[startLine, effectiveEnd]` inclusive, with `end_line` the effective
end (`min(endLine, totalLines)` when `endLine ≥ startLine` is given,
`min(startLine - 1 + maxLines, totalLines)` otherwise) and `line_count`
the number of included lines. -/
theorem C2_read_section_range (relFile : String) (lines : List String) (s : Int)
    (e : Option Int) (m : Int) (hs1 : 1 ≤ s) (hs2 : s ≤ (lines.length : Int))
    (hm : e = none → 0 ≤ m) (he : ∀ ev, e = some ev → s ≤ ev) :
    read_section_lines relFile lines s e m = Except.ok
      { file := relFile
      , start_line := s
      , end_line := specEffectiveEnd lines.length s e m
      , content := String.intercalate "\n"
          (specLinesInclusive lines s (specEffectiveEnd lines.length s e m))
      , line_count :=
          ((specLinesInclusive lines s (specEffectiveEnd lines.length s e m)).length : Int) } := by
  have hcl : (if s < 1 then 1 else s) = s := if_neg (by omega)
  simp only [read_section_lines, hcl]
  rw [if_neg (show ¬ (lines.length : Int) < s by omega)]
  cases e with
  | some ev =>
    have hsev := he ev rfl
    dsimp only
    rw [if_neg (show ¬ ev < s by omega)]
    have hb0 : (0 : Int) ≤ min ev (lines.length : Int) := by omega
    have hbl : min ev (lines.length : Int) ≤ (lines.length : Int) := by omega
    rw [pySlice_eq_specLines lines s _ hs1 hs2 hb0 hbl]
    rfl
  | none =>
    have hm' := hm rfl
    dsimp only
    have hb0 : (0 : Int) ≤ min (s - 1 + m) (lines.length : Int) := by omega
    have hbl : min (s - 1 + m) (lines.length : Int) ≤ (lines.length : Int) := by omega
    rw [pySlice_eq_specLines lines s _ hs1 hs2 hb0 hbl]
    rfl

/-- Counterexample to C2 as stated: on a 3-line file with
`startLine = 1` and `maxLines = -2` (endLine omitted), the claimed
inclusive range `[1, min(1 - 1 + (-2), 3)] = [1, -2]` is empty, but the
code returns one line of content (`lines[0:-2]` wraps the negative end
around), so `content` is not the newline-join of the claimed range. -/
theorem C2_read_section_range_cex :
    read_section_lines "f" ["a", "b", "c"] 1 none (-2) =
      Except.ok { file := "f", start_line := 1, end_line := -2, content := "a", line_count := 1 } ∧
    specLinesInclusive ["a", "b", "c"] 1 (min (1 - 1 + (-2)) 3) = [] ∧
    ("a" : String) ≠ String.intercalate "\n" ([] : List String) := by
  refine ⟨rfl, rfl, ?_⟩
  decide

/-- Witness for C2 at a concrete input: lines 2-5 of a 3-line file clamp
to lines 2-3. -/
theorem C2_read_section_range_witness :
    read_section_lines "f" ["a", "b", "c"] 2 (some 5) 80 =
      Except.ok { file := "f", start_line := 2, end_line := 3, content := "b\nc",
                  line_count := 2 } := by
  have h := C2_read_section_range "f" ["a", "b", "c"] 2 (some 5) 80 (by decide) (by decide)
    (fun hc => by cases hc) (fun ev hev => by cases hev; decide)
  rw [h]
  rfl

/-- C1: for every recognized scope and every non-empty query (and
positive limit), `search_scope` returns at most `limit` hits, and every
returned hit names a scope file whose line `hit.line` (1-based)
contains the query as a case-insensitive substring, with `hit.snippet`
that line stripped of surrounding whitespace. -/
theorem C1_search_hits (scopeMap : List (String × List RootFS)) (scope query : String)
    (limit : Int) (files : List MFile) (r : List SearchHit)
    (hfiles : get_files_for_scope scopeMap scope = Except.ok files)
    (hq : stripStr query ≠ "") (hlim : 0 < limit)
    (hr : search_scope_full scopeMap scope query limit = Except.ok r) :
    r.length ≤ limit.toNat ∧
    ∀ h ∈ r, 1 ≤ h.line ∧ ∃ f ∈ files, h.file = f.path ∧
      ∃ l, f.lines[h.line - 1]? = some l ∧
        lowerChars query <:+: lowerChars l ∧ h.snippet = stripStr l := by
  rw [search_scope_full, if_neg hq, hfiles] at hr
  rw [if_neg (show ¬ limit ≤ 0 by omega)] at hr
  simp only [Except.map, Except.ok.injEq] at hr
  subst hr
  constructor
  · exact List.length_take_le _ _
  · intro h hmem
    have hmem' : h ∈ searchLoop query limit.toNat files [] :=
      List.take_subset _ _ hmem
    rcases searchLoop_mem_spec query limit.toNat files [] h hmem' with hc | ⟨f, hf, hmemf⟩
    · simp at hc
    · obtain ⟨k, l, hget, rfl, hci⟩ := searchLines_mem_spec f.path query f.lines 0 h hmemf
      refine ⟨Nat.succ_le_succ (Nat.zero_le _), f, hf, rfl, l, ?_, ?_, rfl⟩
      · have hk : 0 + k + 1 - 1 = k := by omega
        rw [hk]
        exact hget
      · exact of_decide_eq_true hci

/-- Witness for C1: a one-file scope with one match returns one hit,
within the limit of 5. -/
theorem C1_search_hits_witness :
    ([⟨"a.md", 1, "x"⟩] : List SearchHit).length ≤ (5 : Int).toNat :=
  (C1_search_hits [("s", [RootFS.dir [⟨"a.md", ["x"]⟩]])] "s" "x" 5
    [⟨"a.md", ["x"]⟩] [⟨"a.md", 1, "x"⟩] rfl (by decide) (by decide) rfl).1

/-- C5 (amended: `search_scope` visits files in the order
`get_files_for_scope` yields them — registry root order, with each
directory's files in the filesystem traversal order `glob` provides,
neither deduplicated nor sorted — and the returned hits appear in that
file order, with hits from the same file in top-to-bottom line
order). -/
theorem C5_search_order (scopeMap : List (String × List RootFS)) (scope query : String)
    (limit : Int) (files : List MFile) (r : List SearchHit)
    (hfiles : get_files_for_scope scopeMap scope = Except.ok files)
    (hq : stripStr query ≠ "") (hlim : 0 < limit)
    (hr : search_scope_full scopeMap scope query limit = Except.ok r) :
    r = ((files.map (fun f => search_in_file f query)).flatten).take limit.toNat ∧
    ∀ f : MFile, List.Sorted (· < ·) ((search_in_file f query).map SearchHit.line) := by
  constructor
  · rw [search_scope_full, if_neg hq, hfiles] at hr
    rw [if_neg (show ¬ limit ≤ 0 by omega)] at hr
    simp only [Except.map, Except.ok.injEq] at hr
    subst hr
    have h := searchLoop_take query limit.toNat files [] limit.toNat (le_refl _)
    simpa using h
  · intro f
    exact searchLines_sorted f.path query f.lines 0

/-- Counterexample to C5 as stated: `get_files_for_scope` performs no
sorting or deduplication, so when the directory traversal yields
`b.md` before `a.md` the hits come back in that order, which is not
ascending by relative path string. -/
theorem C5_search_order_cex :
    (search_scope_full [("s", [RootFS.dir [⟨"b.md", ["x"]⟩, ⟨"a.md", ["x"]⟩]])]
        "s" "x" 20).map (fun hits => hits.map SearchHit.file) = Except.ok ["b.md", "a.md"] ∧
    ¬ List.Pairwise StrLe ["b.md", "a.md"] :=
  ⟨rfl, by decide⟩

/-- Witness for C5: the hits equal the truncated concatenation of the
per-file hit lists, in enumeration order. -/
theorem C5_search_order_witness :
    ([⟨"b.md", 1, "x"⟩, ⟨"a.md", 1, "x"⟩] : List SearchHit) =
      ((([⟨"b.md", ["x"]⟩, ⟨"a.md", ["x"]⟩] : List MFile).map
        (fun f => search_in_file f "x")).flatten).take (20 : Int).toNat :=
  (C5_search_order [("s", [RootFS.dir [⟨"b.md", ["x"]⟩, ⟨"a.md", ["x"]⟩]])] "s" "x" 20
    [⟨"b.md", ["x"]⟩, ⟨"a.md", ["x"]⟩] [⟨"b.md", 1, "x"⟩, ⟨"a.md", 1, "x"⟩]
    rfl (by decide) (by decide) rfl).1

/-- C6: for every recognized scope, `list_openai_doc_files` returns
relative path strings sorted strictly ascending (in Python's string
order), with no two entries denoting the same resolved absolute path,
even when scope roots overlap or nest.  The hypothesis `hinj` states
that the external string of a path is derived injectively from its
resolved absolute form, which holds for `relative_to` under a fixed
repository root. -/
theorem C6_list_files_sorted (relOf : String → String) (roots : List RootP)
    (hinj : ∀ a ∈ roots.flatMap candidatePaths, ∀ b ∈ roots.flatMap candidatePaths,
      relOf a = relOf b → a = b) :
    List.Pairwise (fun a b => StrLe a b ∧ a ≠ b) (list_openai_doc_files relOf roots) ∧
    ∃ ps : List String, ps.Nodup ∧ (∀ x ∈ ps, x ∈ roots.flatMap candidatePaths) ∧
      (list_openai_doc_files relOf roots).Perm (ps.map relOf) := by
  have hbasend : (dedupSeen [] (roots.flatMap candidatePaths)).Nodup :=
    (dedupSeen_nodup_and_fresh (roots.flatMap candidatePaths) []).1
  have hbasesub : ∀ x ∈ dedupSeen [] (roots.flatMap candidatePaths),
      x ∈ roots.flatMap candidatePaths :=
    dedupSeen_sub (roots.flatMap candidatePaths) []
  have hmapnd : ((dedupSeen [] (roots.flatMap candidatePaths)).map relOf).Nodup := by
    apply List.Nodup.map_on _ hbasend
    intro x hx y hy hxy
    exact hinj x (hbasesub x hx) y (hbasesub y hy) hxy
  have hperm : (list_openai_doc_files relOf roots).Perm
      ((dedupSeen [] (roots.flatMap candidatePaths)).map relOf) :=
    sortStrings_perm _
  have houtnd : (list_openai_doc_files relOf roots).Nodup :=
    hperm.nodup_iff.mpr hmapnd
  have hsorted : List.Sorted StrLe (list_openai_doc_files relOf roots) :=
    sortStrings_sorted _
  refine ⟨?_, dedupSeen [] (roots.flatMap candidatePaths), hbasend, hbasesub, hperm⟩
  exact hsorted.and houtnd

/-- Witness for C6: overlapping roots (`a` appears both in the directory
listing and as a file root) produce the strictly sorted, deduplicated
listing. -/
theorem C6_list_files_sorted_witness :
    List.Pairwise (fun a b => StrLe a b ∧ a ≠ b)
      (list_openai_doc_files id [RootP.dir ["b", "a"], RootP.file "a"]) :=
  (C6_list_files_sorted id [RootP.dir ["b", "a"], RootP.file "a"]
    (fun _ _ _ _ h => h)).1

/-- C9 (amended: only candidates whose modification time is strictly
positive can be reported, because the running maximum starts at `0.0`
and only a strictly greater time replaces it; when no candidate has a
positive mtime — in particular when no Markdown file is found at all —
the repository root's own identity and mtime are reported): the walk
reports the first candidate, in encounter order, that attains the
strictly greatest modification time. -/
theorem C9_last_update (repoRoot : String) (repoMtime : Int)
    (scopeRoots : List (List RootW)) :
    ((∀ p ∈ candsOfAll scopeRoots, ∀ mv : Int, p.mtime = some mv → mv ≤ 0) →
      get_last_update_metadata repoRoot repoMtime scopeRoots = (repoRoot, repoMtime)) ∧
    (∀ (i : Nat) (p : StatP) (mv : Int),
      (candsOfAll scopeRoots)[i]? = some p → p.mtime = some mv → 0 < mv →
      (∀ (j : Nat) (q : StatP) (mq : Int),
        (candsOfAll scopeRoots)[j]? = some q → q.mtime = some mq → mq ≤ mv) →
      (∀ j, j < i → ∀ (q : StatP) (mq : Int),
        (candsOfAll scopeRoots)[j]? = some q → q.mtime = some mq → mq < mv) →
      get_last_update_metadata repoRoot repoMtime scopeRoots = (p.name, mv)) := by
  constructor
  · intro hall
    rw [get_last_update_metadata_eq_flat]
    rw [scan_stay 0 (candsOfAll scopeRoots) 0 none (le_refl 0) ?_]
    intro j q mq hj hq
    exact hall q (List.getElem?_mem hj) mq hq
  · intro i p mv hi hm hpos hb hfirst
    rw [get_last_update_metadata_eq_flat]
    rw [scan_first (candsOfAll scopeRoots) i p mv 0 none hi hm hpos hb hfirst]

/-- Counterexample to C9 as stated: a single Markdown file with
modification time `0` is found during the walk, yet the code reports
the repository root (mtime `7` here) instead of that file, because the
strict comparison against the initial `0.0` never accepts it. -/
theorem C9_last_update_cex :
    get_last_update_metadata "REPO" 7 [[RootW.dir [⟨"a.md", some 0⟩]]] = ("REPO", 7) ∧
    ("REPO" : String) ≠ "a.md" :=
  ⟨rfl, by decide⟩

/-- Witness for C9: a single file with positive mtime is reported. -/
theorem C9_last_update_witness :
    get_last_update_metadata "R" 9 [[RootW.file ⟨"a.md", some 5⟩]] = ("a.md", 5) := by
  apply (C9_last_update "R" 9 [[RootW.file ⟨"a.md", some 5⟩]]).2 0 ⟨"a.md", some 5⟩ 5 rfl rfl
    (by decide)
  · intro j q mq hj hq
    cases j with
    | zero =>
      simp only [candsOfAll, candidatesOf, List.flatMap_cons, List.flatMap_nil,
        List.append_nil, List.getElem?_cons_zero, Option.some.injEq] at hj
      subst hj
      simp only [Option.some.injEq] at hq
      omega
    | succ j' =>
      simp [candsOfAll, candidatesOf] at hj
  · intro j hj q mq hjq hq
    omega

theorem read_section_lines_ok (relFile : String) (lines : List String) (s : Int)
    (e : Option Int) (m : Int) (r : SectionSlice)
    (hr : read_section_lines relFile lines s e m = Except.ok r) :
    1 ≤ (if s < 1 then 1 else s) ∧ (if s < 1 then 1 else s) ≤ (lines.length : Int) ∧
    ∃ b : Int,
      (match e with
       | some ev => (if s < 1 then 1 else s) ≤ ev ∧ b = min ev (lines.length : Int)
       | none => b = min ((if s < 1 then 1 else s) - 1 + m) (lines.length : Int)) ∧
      r = { file := relFile, start_line := (if s < 1 then 1 else s), end_line := b,
            content := String.intercalate "\n"
              (pySlice lines ((if s < 1 then 1 else s) - 1) b),
            line_count := ((pySlice lines ((if s < 1 then 1 else s) - 1) b).length : Int) } := by
  simp only [read_section_lines] at hr
  by_cases hbeyond : (lines.length : Int) < (if s < 1 then 1 else s)
  · rw [if_pos hbeyond] at hr
    exact absurd hr (by simp)
  · rw [if_neg hbeyond] at hr
    refine ⟨by split <;> omega, by omega, ?_⟩
    cases e with
    | some ev =>
      dsimp only at hr
      by_cases hev : ev < (if s < 1 then 1 else s)
      · rw [if_pos hev] at hr
        exact absurd hr (by simp)
      · rw [if_neg hev] at hr
        simp only [Except.ok.injEq] at hr
        exact ⟨min ev (lines.length : Int), ⟨by omega, rfl⟩, hr.symm⟩
    | none =>
      dsimp only at hr
      simp only [Except.ok.injEq] at hr
      exact ⟨min ((if s < 1 then 1 else s) - 1 + m) (lines.length : Int), rfl, hr.symm⟩

theorem extract_section_ok (relFile : String) (lines : List String) (header : String)
    (hl : Option Int) (m : Int) (r : SectionSlice)
    (hr : extract_section_by_header relFile lines header hl m = some r) :
    ∃ (start_idx : Nat) (l0 : String) (nb : Nat),
      lines[start_idx]? = some l0 ∧
      headerLineMatch (lowerStr (stripStr header)) hl l0 = true ∧
      (∀ (t : Nat) (l' : String), t < start_idx → lines[t]? = some l' →
        headerLineMatch (lowerStr (stripStr header)) hl l' = false) ∧
      start_idx < nb ∧ nb ≤ lines.length ∧
      (∀ (j : Nat) (l' : String), start_idx < j → j < nb → lines[j]? = some l' →
        boundaryLine (hashCount (lstripStr l0)) l' = false) ∧
      (nb = lines.length ∨ ∃ lB, lines[nb]? = some lB ∧
        boundaryLine (hashCount (lstripStr l0)) lB = true) ∧
      r = { file := relFile
          , start_line := (start_idx : Int) + 1
          , end_line := if (nb : Int) - (start_idx : Int) > m then (start_idx : Int) + m
              else (nb : Int)
          , content := String.intercalate "\n" (pySlice lines (start_idx : Int)
              (if (nb : Int) - (start_idx : Int) > m then (start_idx : Int) + m
               else (nb : Int)))
          , line_count := (if (nb : Int) - (start_idx : Int) > m then (start_idx : Int) + m
               else (nb : Int)) - ((start_idx : Int) + 1) + 1 } := by
  simp only [extract_section_by_header] at hr
  cases hfind : findHeaderFrom (lowerStr (stripStr header)) hl 0 lines with
  | none => rw [hfind] at hr; exact absurd hr (by simp)
  | some pr =>
    obtain ⟨start_idx, lvl⟩ := pr
    rw [hfind] at hr
    dsimp only at hr
    obtain ⟨-, hlt, ⟨l0, hget, hmatch, hlvl⟩, hmin⟩ :=
      findHeaderFrom_some_spec (lowerStr (stripStr header)) hl lines 0 start_idx lvl hfind
    rw [Nat.sub_zero] at hget hlt
    subst hlvl
    have hminz : ∀ (t : Nat) (l' : String), t < start_idx → lines[t]? = some l' →
        headerLineMatch (lowerStr (stripStr header)) hl l' = false := by
      intro t l' ht hg
      exact hmin t l' (by omega) hg
    cases hnb : findFrom (boundaryLine (hashCount (lstripStr l0))) (start_idx + 1)
        (lines.drop (start_idx + 1)) with
    | some j =>
      rw [hnb] at hr
      dsimp only at hr
      simp only [Option.some.injEq] at hr
      obtain ⟨hj1, hj2, ⟨lB, hlB, hlBp⟩, hjmin⟩ :=
        findFrom_some_spec (boundaryLine (hashCount (lstripStr l0)))
          (lines.drop (start_idx + 1)) (start_idx + 1) j hnb
      rw [List.length_drop] at hj2
      rw [List.getElem?_drop] at hlB
      refine ⟨start_idx, l0, j, hget, hmatch, hminz, by omega, by omega, ?_, ?_, hr.symm⟩
      · intro k l' hk1 hk2 hkg
        have := hjmin (k - (start_idx + 1)) l' (by omega) ?_
        · exact this
        · rw [List.getElem?_drop]
          rw [show start_idx + 1 + (k - (start_idx + 1)) = k by omega]
          exact hkg
      · right
        refine ⟨lB, ?_, hlBp⟩
        rw [show start_idx + 1 + (j - (start_idx + 1)) = j by omega] at hlB
        exact hlB
    | none =>
      rw [hnb] at hr
      dsimp only at hr
      simp only [Option.some.injEq] at hr
      have hnone := findFrom_none_spec (boundaryLine (hashCount (lstripStr l0)))
        (lines.drop (start_idx + 1)) (start_idx + 1) hnb
      refine ⟨start_idx, l0, lines.length, hget, hmatch, hminz, by omega, le_refl _,
        ?_, Or.inl rfl, hr.symm⟩
      intro k l' hk1 hk2 hkg
      apply hnone (k - (start_idx + 1)) l'
      rw [List.getElem?_drop]
      rw [show start_idx + 1 + (k - (start_idx + 1)) = k by omega]
      exact hkg

/-- C10: under the precondition `maxLines ≥ 1`, every `SectionSlice`
successfully returned by `read_section` or by the header extractor
satisfies `line_count = end_line - start_line + 1 ≥ 1`, has a 1-based
`start_line` with `start_line ≤ end_line`, and its `content` is the
newline-join of exactly `line_count` lines. -/
theorem C10_slice_invariants :
    (∀ (relFile : String) (lines : List String) (s : Int) (e : Option Int) (m : Int)
      (r : SectionSlice), 1 ≤ m → read_section_lines relFile lines s e m = Except.ok r →
      1 ≤ r.line_count ∧ r.line_count = r.end_line - r.start_line + 1 ∧
      1 ≤ r.start_line ∧ r.start_line ≤ r.end_line ∧
      ∃ ls : List String, (ls.length : Int) = r.line_count ∧
        r.content = String.intercalate "\n" ls) ∧
    (∀ (relFile : String) (lines : List String) (header : String) (hl : Option Int)
      (m : Int) (r : SectionSlice), 1 ≤ m →
      extract_section_by_header relFile lines header hl m = some r →
      1 ≤ r.line_count ∧ r.line_count = r.end_line - r.start_line + 1 ∧
      1 ≤ r.start_line ∧ r.start_line ≤ r.end_line ∧
      ∃ ls : List String, (ls.length : Int) = r.line_count ∧
        r.content = String.intercalate "\n" ls) := by
  constructor
  · intro relFile lines s e m r hm hr
    obtain ⟨h1, h2, b, hbspec, rfl⟩ := read_section_lines_ok relFile lines s e m r hr
    have hsb : (if s < 1 then 1 else s) ≤ b ∧ b ≤ (lines.length : Int) := by
      cases e with
      | some ev =>
        obtain ⟨hev, rfl⟩ := hbspec
        constructor <;> omega
      | none =>
        rw [hbspec]
        constructor <;> omega
    have hlen := pySlice_length lines ((if s < 1 then 1 else s) - 1) b
      (by omega) (by omega) (by omega) hsb.2
    refine ⟨?_, ?_, h1, hsb.1, ?_⟩
    · show 1 ≤ ((pySlice lines ((if s < 1 then 1 else s) - 1) b).length : Int)
      rw [hlen]
      omega
    · show ((pySlice lines ((if s < 1 then 1 else s) - 1) b).length : Int) =
        b - (if s < 1 then 1 else s) + 1
      rw [hlen]
      omega
    · exact ⟨pySlice lines ((if s < 1 then 1 else s) - 1) b, rfl, rfl⟩
  · intro relFile lines header hl m r hm hr
    obtain ⟨i, l0, nb, hget, hmatch, hmin, hinb, hnble, hbetween, hB, rfl⟩ :=
      extract_section_ok relFile lines header hl m r hr
    have hE1 : (i : Int) + 1 ≤
        (if (nb : Int) - (i : Int) > m then (i : Int) + m else (nb : Int)) := by
      split <;> omega
    have hE2 : (if (nb : Int) - (i : Int) > m then (i : Int) + m else (nb : Int)) ≤
        (lines.length : Int) := by
      split <;> omega
    have hlen := pySlice_length lines (i : Int)
      (if (nb : Int) - (i : Int) > m then (i : Int) + m else (nb : Int))
      (by omega) (by omega) (by omega) hE2
    refine ⟨?_, rfl, show (1 : Int) ≤ (i : Int) + 1 by omega, hE1, ?_⟩
    · show 1 ≤ (if (nb : Int) - (i : Int) > m then (i : Int) + m else (nb : Int)) -
        ((i : Int) + 1) + 1
      omega
    · refine ⟨pySlice lines (i : Int)
        (if (nb : Int) - (i : Int) > m then (i : Int) + m else (nb : Int)), ?_, rfl⟩
      show ((pySlice lines (i : Int)
        (if (nb : Int) - (i : Int) > m then (i : Int) + m else (nb : Int))).length : Int) =
        (if (nb : Int) - (i : Int) > m then (i : Int) + m else (nb : Int)) -
          ((i : Int) + 1) + 1
      rw [hlen]
      omega

theorem boundaryLine_eq_true_iff (lvl : Nat) (l : String) :
    boundaryLine lvl l = true ↔
      (startsHash (lstripStr l) = true ∧ hashCount (lstripStr l) ≤ lvl) := by
  simp [boundaryLine]

/-- C3 (amended: the section's end boundary is the next line that,
after left-trimming, starts with `#` and whose leading-hash count is at
most the matched heading's level — visible text is NOT required on the
boundary line, so a bare `##` terminates a section even though the
heading scan would ignore it — or end of file; the content equation is
stated for `maxLines ≥ 0` since a negative cap triggers Python's
negative-index slice wrap-around): the returned section runs from the
matched heading line up to (but excluding) that boundary, truncated to
at most `maxLines` lines counted from the heading line
(`end_line = min(boundary, start + maxLines)`). -/
theorem C3_extract_extent (relFile : String) (lines : List String) (header : String)
    (hl : Option Int) (m : Int) (r : SectionSlice)
    (h : extract_section_by_header relFile lines header hl m = some r) :
    ∃ (i B : Nat) (l0 : String),
      lines[i]? = some l0 ∧
      headerLineMatch (lowerStr (stripStr header)) hl l0 = true ∧
      r.start_line = (i : Int) + 1 ∧
      i < B ∧ B ≤ lines.length ∧
      (∀ (j : Nat) (l' : String), i < j → j < B → lines[j]? = some l' →
        ¬(startsHash (lstripStr l') = true ∧
          hashCount (lstripStr l') ≤ hashCount (lstripStr l0))) ∧
      (B = lines.length ∨ ∃ lB, lines[B]? = some lB ∧ startsHash (lstripStr lB) = true ∧
        hashCount (lstripStr lB) ≤ hashCount (lstripStr l0)) ∧
      r.end_line = min (B : Int) ((i : Int) + m) ∧
      (0 ≤ (i : Int) + m →
        r.content = String.intercalate "\n"
          (specLinesInclusive lines ((i : Int) + 1) r.end_line)) := by
  obtain ⟨i, l0, nb, hget, hmatch, hmin, hinb, hnble, hbetween, hB, rfl⟩ :=
    extract_section_ok relFile lines header hl m r h
  have hEeq : (if (nb : Int) - (i : Int) > m then (i : Int) + m else Int.ofNat nb) =
      min (nb : Int) ((i : Int) + m) := by
    rw [Int.ofNat_eq_coe]
    split <;> omega
  refine ⟨i, nb, l0, hget, hmatch, rfl, hinb, hnble, ?_, ?_, hEeq, ?_⟩
  · intro j l' hj1 hj2 hjg hc
    have hfalse := hbetween j l' hj1 hj2 hjg
    exact absurd ((boundaryLine_eq_true_iff _ _).mpr hc) (by simp [hfalse])
  · rcases hB with hB | ⟨lB, hlB, hlBp⟩
    · exact Or.inl hB
    · obtain ⟨h1, h2⟩ := (boundaryLine_eq_true_iff _ _).mp hlBp
      exact Or.inr ⟨lB, hlB, h1, h2⟩
  · intro hpos
    have hsl := pySlice_eq_specLines lines ((i : Int) + 1) (min (nb : Int) ((i : Int) + m))
      (by omega) (by omega) (by omega) (by omega)
    have hisimp : ((i : Int) + 1) - 1 = (i : Int) := by ring
    rw [hisimp] at hsl
    show String.intercalate "\n" (pySlice lines (i : Int)
        (if (nb : Int) - (i : Int) > m then (i : Int) + m else Int.ofNat nb)) =
      String.intercalate "\n" (specLinesInclusive lines ((i : Int) + 1)
        (if (nb : Int) - (i : Int) > m then (i : Int) + m else Int.ofNat nb))
    rw [hEeq, hsl]

/-- Counterexample to C3 as stated: with the spec's definition of a
heading line (hashes followed by non-empty visible text), the section
for `## Intro` should run to line index 3 (`# Next`), since the bare
`##` at index 2 is not a heading line; but the code terminates the
section at the bare `##`, returning `end_line = 2` instead of 3. -/
theorem C3_extract_extent_cex :
    extract_section_by_header "f" ["## Intro", "a", "##", "# Next"] "Intro" none 200 =
      some { file := "f", start_line := 1, end_line := 2, content := "## Intro\na",
             line_count := 2 } ∧
    specIsHeadingLine "a" = false ∧
    specIsHeadingLine "##" = false ∧
    specIsHeadingLine "# Next" = true ∧
    hashCount (lstripStr "# Next") ≤ 2 ∧
    (2 : Int) ≠ 3 :=
  ⟨rfl, rfl, rfl, rfl, by decide, by decide⟩

/-- Witness for C3 at a concrete input: a level-1 heading section that
runs to end of file. -/
theorem C3_extract_extent_witness :
    ∃ (i B : Nat) (l0 : String),
      (["# T", "x"] : List String)[i]? = some l0 ∧
      headerLineMatch (lowerStr (stripStr "T")) none l0 = true ∧
      (⟨"f", 1, 2, "# T\nx", 2⟩ : SectionSlice).start_line = (i : Int) + 1 ∧
      i < B ∧ B ≤ (["# T", "x"] : List String).length ∧
      (∀ (j : Nat) (l' : String), i < j → j < B →
        (["# T", "x"] : List String)[j]? = some l' →
        ¬(startsHash (lstripStr l') = true ∧
          hashCount (lstripStr l') ≤ hashCount (lstripStr l0))) ∧
      (B = (["# T", "x"] : List String).length ∨
        ∃ lB, (["# T", "x"] : List String)[B]? = some lB ∧
          startsHash (lstripStr lB) = true ∧
          hashCount (lstripStr lB) ≤ hashCount (lstripStr l0)) ∧
      (⟨"f", 1, 2, "# T\nx", 2⟩ : SectionSlice).end_line = min (B : Int) ((i : Int) + 200) ∧
      (0 ≤ (i : Int) + 200 →
        (⟨"f", 1, 2, "# T\nx", 2⟩ : SectionSlice).content = String.intercalate "\n"
          (specLinesInclusive (["# T", "x"] : List String) ((i : Int) + 1)
            (⟨"f", 1, 2, "# T\nx", 2⟩ : SectionSlice).end_line)) :=
  C3_extract_extent "f" ["# T", "x"] "T" none 200 ⟨"f", 1, 2, "# T\nx", 2⟩ rfl

/-- C4 (amended: the heading's visible text is compared after stripping
whitespace on the LEFT only — a heading whose text has trailing
whitespace does not match — while the requested header is stripped on
both sides; both are lowered): in the header extractor a heading line
matches the requested header iff it has at least one leading `#`, its
left-stripped visible text is non-empty and equals the lowered stripped
request, and, when `headerLevel` is given, its hash count equals it
exactly; when `headerLevel` is omitted the first matching heading in
top-to-bottom line order is taken regardless of level. -/
theorem C4_header_match_rule (lines : List String) (header : String) (hl : Option Int)
    (relFile : String) (m : Int) :
    (∀ line : String,
      headerLineMatch (lowerStr (stripStr header)) hl line = true ↔
        (1 ≤ hashCount (lstripStr line) ∧ textPart (lstripStr line) ≠ "" ∧
         lowerStr (textPart (lstripStr line)) = lowerStr (stripStr header) ∧
         ∀ l0 : Int, hl = some l0 → (hashCount (lstripStr line) : Int) = l0)) ∧
    (∀ r : SectionSlice, extract_section_by_header relFile lines header hl m = some r →
      ∃ (i : Nat) (l : String), lines[i]? = some l ∧ r.start_line = (i : Int) + 1 ∧
        headerLineMatch (lowerStr (stripStr header)) hl l = true ∧
        ∀ (j : Nat) (l' : String), j < i → lines[j]? = some l' →
          headerLineMatch (lowerStr (stripStr header)) hl l' = false) := by
  constructor
  · intro line
    unfold headerLineMatch
    cases hsh : startsHash (lstripStr line) with
    | false =>
      have h0 : hashCount (lstripStr line) = 0 := by
        by_contra hc
        have h1 := (startsHash_eq_true_iff (lstripStr line)).mpr (by omega)
        rw [h1] at hsh
        exact Bool.noConfusion hsh
      simp [hsh, h0]
    | true =>
      have h1 : 1 ≤ hashCount (lstripStr line) := (startsHash_eq_true_iff _).mp hsh
      simp only [hsh, Bool.not_true, Bool.false_eq_true, if_false]
      rw [if_neg (show ¬ hashCount (lstripStr line) = 0 by omega)]
      by_cases h3 : textPart (lstripStr line) = ""
      · simp [h3]
      · rw [if_neg (show ¬ (textPart (lstripStr line) == "") = true by simp [h3])]
        rcases hl with _ | l0
        · dsimp only
          simp [h1, h3]
        · dsimp only
          by_cases h4 : (hashCount (lstripStr line) : Int) = l0
          · rw [if_neg (show ¬ ((hashCount (lstripStr line) : Int) != l0) = true by
              simp [h4])]
            simp [h1, h3, h4]
          · rw [if_pos (show ((hashCount (lstripStr line) : Int) != l0) = true by
              simp [h4])]
            simp [h1, h3, h4]
  · intro r hr
    obtain ⟨i, l0, nb, hget, hmatch, hmin, _, _, _, _, rfl⟩ :=
      extract_section_ok relFile lines header hl m r hr
    exact ⟨i, l0, hget, rfl, hmatch, hmin⟩

/-- Counterexample to C4 as stated: the heading `## Intro ` (trailing
space) matches the request `Intro` under the claimed both-sides
trimming rule, yet the extractor finds no matching heading, because the
code compares the visible text with its trailing whitespace intact. -/
theorem C4_header_match_rule_cex :
    specHeaderMatches "## Intro " "Intro" none = true ∧
    extract_section_by_header "f" ["## Intro "] "Intro" none 200 = none :=
  ⟨rfl, rfl⟩

/-- Witness for C4: the matching rule evaluated at the heading `# T`
for the request `T` with no level constraint. -/
theorem C4_header_match_rule_witness :
    headerLineMatch (lowerStr (stripStr "T")) none "# T" = true ↔
      (1 ≤ hashCount (lstripStr "# T") ∧ textPart (lstripStr "# T") ≠ "" ∧
       lowerStr (textPart (lstripStr "# T")) = lowerStr (stripStr "T") ∧
       ∀ l0 : Int, (none : Option Int) = some l0 →
         (hashCount (lstripStr "# T") : Int) = l0) :=
  (C4_header_match_rule ["# T"] "T" none "f" 200).1 "# T"

/-- Witness for C10: the invariants instantiated at a one-line
line-range read and at a two-line header section. -/
theorem C10_slice_invariants_witness :
    (1 ≤ (⟨"f", 1, 1, "hello", 1⟩ : SectionSlice).line_count ∧
     (⟨"f", 1, 1, "hello", 1⟩ : SectionSlice).line_count =
       (⟨"f", 1, 1, "hello", 1⟩ : SectionSlice).end_line -
         (⟨"f", 1, 1, "hello", 1⟩ : SectionSlice).start_line + 1 ∧
     1 ≤ (⟨"f", 1, 1, "hello", 1⟩ : SectionSlice).start_line ∧
     (⟨"f", 1, 1, "hello", 1⟩ : SectionSlice).start_line ≤
       (⟨"f", 1, 1, "hello", 1⟩ : SectionSlice).end_line ∧
     ∃ ls : List String,
       (ls.length : Int) = (⟨"f", 1, 1, "hello", 1⟩ : SectionSlice).line_count ∧
       (⟨"f", 1, 1, "hello", 1⟩ : SectionSlice).content = String.intercalate "\n" ls) ∧
    (1 ≤ (⟨"f", 1, 2, "# T\nx", 2⟩ : SectionSlice).line_count ∧
     (⟨"f", 1, 2, "# T\nx", 2⟩ : SectionSlice).line_count =
       (⟨"f", 1, 2, "# T\nx", 2⟩ : SectionSlice).end_line -
         (⟨"f", 1, 2, "# T\nx", 2⟩ : SectionSlice).start_line + 1 ∧
     1 ≤ (⟨"f", 1, 2, "# T\nx", 2⟩ : SectionSlice).start_line ∧
     (⟨"f", 1, 2, "# T\nx", 2⟩ : SectionSlice).start_line ≤
       (⟨"f", 1, 2, "# T\nx", 2⟩ : SectionSlice).end_line ∧
     ∃ ls : List String,
       (ls.length : Int) = (⟨"f", 1, 2, "# T\nx", 2⟩ : SectionSlice).line_count ∧
       (⟨"f", 1, 2, "# T\nx", 2⟩ : SectionSlice).content = String.intercalate "\n" ls) :=
  ⟨C10_slice_invariants.1 "f" ["hello"] 1 none 80 ⟨"f", 1, 1, "hello", 1⟩ (by decide) rfl,
   C10_slice_invariants.2 "f" ["# T", "x"] "T" none 200 ⟨"f", 1, 2, "# T\nx", 2⟩
     (by decide) rfl⟩
